import Mathlib

/-!
Verification development for the crunch LSM key-value storage engine
(`crates/engine`). The Rust sources are shallowly embedded: keys and values
(Rust `&str` / `String`) are modelled as their UTF-8 byte sequences
(`List Nat`), on which Rust's `Ord` for `str` is exactly lexicographic byte
order; `BTreeMap` is modelled as a strictly-ascending association list with
an order-preserving replace-insert; files are modelled as the list of their
decoded entries (segment files, WAL) or as raw byte lists (the entry codec);
fallible operations return `Except`.
-/

namespace Crunch

/-- Keys are byte strings: the UTF-8 bytes of the Rust `&str`. -/
abbrev Key := List Nat

/-- Values are byte strings as well. -/
abbrev Value := List Nat

/-- Largest length representable as a `u32`: `u32::MAX`. -/
def u32Max : Nat := 2 ^ 32 - 1

/-- Entries of a segment file or of the WAL (`segment.rs`, `enum Entry`):
either a key-value assignment or a deletion marker (tombstone). -/
inductive Entry where
  /-- A key-value assignment. -/
  | assignment (key value : Key)
  /-- A marker that a key is now deleted. -/
  | tombstone (key : Key)
deriving DecidableEq

/-- Key of an entry (`Entry::key`). -/
def Entry.key : Entry → Key
  | .assignment k _ => k
  | .tombstone k => k

/-- Payload of an entry: `some value` for an assignment, `none` for a
tombstone. This matches the `Option<String>` value type the memtable and the
segment lookups use. -/
def Entry.payload : Entry → Option Value
  | .assignment _ v => some v
  | .tombstone _ => none

/-- On-disk byte size of an entry (`Entry::stride`): indicator byte plus
length prefixes plus the key (and value) bytes. -/
def Entry.stride : Entry → Nat
  | .assignment k v => k.length + v.length + 8 + 1
  | .tombstone k => k.length + 4 + 1

/-- Which component of a key-value pair an error refers to
(`error.rs`, `enum PairComponent`). -/
inductive PairComponent where
  | key
  | value
deriving DecidableEq

/-- Write-path errors of the segment codec (`error.rs`): a key or value whose
length does not fit in a `u32`. I/O errors are not modelled (the embedding
has no real file system). -/
inductive WriteError where
  | tooLarge (which : PairComponent) (actual max : Nat)
deriving DecidableEq

/-- Embedding of `segment::write` (`segment.rs`): check that the key length
and then the value length fit in a `u32`; only after both checks pass is the
frame written to the file, so a failing call appends nothing. The produced
file content is modelled by the decoded `Entry`. -/
def segmentWrite (key value : Key) : Except WriteError Entry :=
  if key.length > u32Max then
    .error (.tooLarge .key key.length u32Max)
  else if value.length > u32Max then
    .error (.tooLarge .value value.length u32Max)
  else
    .ok (.assignment key value)

/-- Embedding of `segment::tombstone` (`segment.rs`): check the key length,
then write the tombstone frame. -/
def segmentTombstone (key : Key) : Except WriteError Entry :=
  if key.length > u32Max then
    .error (.tooLarge .key key.length u32Max)
  else
    .ok (.tombstone key)

/-! ### The entry codec (`EntryIter::next`)

The decoder is modelled at the byte level. `readExact` mirrors
`Read::read_exact`: it fails when fewer bytes remain than requested. The
UTF-8 validation performed by `std::str::from_utf8(..).unwrap()` is elided
(keys are kept as their byte sequences; on non-UTF-8 bytes the source
panics, a path none of the claims concerns). -/

/-- Result of one `EntryIter::next` call. `eod` is the `None` return (end of
iteration); `panicked` models the `.unwrap()` calls on a failed mid-entry
read, which abort the process instead of returning an error. -/
inductive NextResult where
  | entry (e : Entry) (rest : List Nat)
  | eod
  | panicked
deriving DecidableEq

/-- Embedding of `Read::read_exact` over a byte list: take exactly `n` bytes
or fail with `UnexpectedEof`. -/
def readExact (n : Nat) (s : List Nat) : Option (List Nat × List Nat) :=
  if s.length < n then none else some (s.take n, s.drop n)

/-- Big-endian `u32::from_be_bytes` over a 4-byte list. -/
def beU32 (b : List Nat) : Nat :=
  b.foldl (fun a x => a * 256 + x) 0

/-- Embedding of `EntryIter::next` (`segment.rs` lines 124-165). An EOF at
the indicator byte is the normal end (`None`); an indicator other than
`0x00`/`0x01` logs a warning and also returns `None`, exactly like a normal
end of file; a short read in the middle of an entry hits `.unwrap()` and
panics. -/
def entryIterNext (s : List Nat) : NextResult :=
  match s with
  | [] => .eod
  | ind :: rest =>
    if ind = 0 then
      match readExact 4 rest with
      | none => .panicked
      | some (szb, r1) =>
        match readExact (beU32 szb) r1 with
        | none => .panicked
        | some (kb, r2) =>
          match readExact 4 r2 with
          | none => .panicked
          | some (szb2, r3) =>
            match readExact (beU32 szb2) r3 with
            | none => .panicked
            | some (vb, r4) => .entry (.assignment kb vb) r4
    else if ind = 1 then
      match readExact 4 rest with
      | none => .panicked
      | some (szb, r1) =>
        match readExact (beU32 szb) r1 with
        | none => .panicked
        | some (kb, r2) => .entry (.tombstone kb) r2
    else
      .eod

/-! ### `BTreeMap` model

A `BTreeMap` is embedded as an association list that is kept strictly
ascending by key; `btInsert` places the new pair at its ordered position and
replaces an existing binding of the same key, which is the observable
behaviour of `BTreeMap::insert`. -/

/-- Order-preserving insert-or-replace into the association-list model of a
`BTreeMap`. -/
def btInsert {α : Type} : List (Key × α) → Key → α → List (Key × α)
  | [], k, v => [(k, v)]
  | (k', v') :: rest, k, v =>
    if k < k' then (k, v) :: (k', v') :: rest
    else if k' < k then (k', v') :: btInsert rest k v
    else (k, v) :: rest

/-- Lookup in the association-list model of a `BTreeMap` (`BTreeMap::get`). -/
def btLookup {α : Type} (m : List (Key × α)) (k : Key) : Option α :=
  (m.find? (fun p => decide (p.1 = k))).map Prod.snd

/-! ### Memtable (`memtable.rs`) -/

/-- The memtable's `BTreeMap<String, Option<String>>`: a binding to `none`
is a tombstone. -/
abbrev MemtableMap := List (Key × Option Value)

/-- Embedding of `Memtable::set`. -/
def memtableSet (m : MemtableMap) (k : Key) (v : Value) : MemtableMap :=
  btInsert m k (some v)

/-- Embedding of `Memtable::delete`: insert a tombstone. -/
def memtableDelete (m : MemtableMap) (k : Key) : MemtableMap :=
  btInsert m k none

/-- Embedding of `Memtable::get`: three-valued (`none` = unknown,
`some none` = tombstone, `some (some v)` = live value). -/
def memtableGet (m : MemtableMap) (k : Key) : Option (Option Value) :=
  btLookup m k

/-- Embedding of `Memtable::full`: `tree.len() >= capacity`. -/
def memtableFull (m : MemtableMap) (capacity : Nat) : Bool :=
  decide (m.length ≥ capacity)

/-! ### Sparse index (`sparse_index.rs`) -/

/-- The sparse index's `BTreeMap<String, u64>`, as a sorted association
list. -/
abbrev SparseIndex := List (Key × Nat)

/-- Embedding of `SparseIndex::insert`. -/
def sparseInsert (ix : SparseIndex) (k : Key) (offset : Nat) : SparseIndex :=
  btInsert ix k offset

/-- Embedding of `SparseIndex::get_byte_range`: the offset of the last
indexed key `≤ key` (the `(Unbounded, Included key)` range's last element)
and the offset of the first indexed key `> key` (the
`(Excluded key, Unbounded)` range's first element). On the sorted
association-list model, a `BTreeMap` range query is a filter. -/
def getByteRange (ix : SparseIndex) (key : Key) : Option Nat × Option Nat :=
  ((ix.filter (fun p => decide (p.1 ≤ key))).getLast?.map Prod.snd,
   (ix.filter (fun p => decide (key < p.1))).head?.map Prod.snd)

/-! ### Segment handle (`segment.rs`, `Segment`)

A segment file is modelled as the list of its decoded entries. Byte offsets
within the file are recovered from the entry strides. The Bloom filter is an
external crate (`bloom::BloomFilter`), specified as an approximate set with
no false negatives; it is modelled as exact membership in the segment's key
list plus an arbitrary false-positive oracle `fp` that may also answer
`true` for absent keys. -/

/-- Bloom filter membership: true for every inserted key (no false
negatives), and possibly also true on other keys as decided by the
false-positive oracle `fp`. -/
def bloomContains (fp : List Key → Key → Bool) (keys : List Key) (k : Key) : Bool :=
  keys.contains k || fp keys k

/-- Keys of a segment, in file order. -/
def segKeys (seg : List Entry) : List Key :=
  seg.map Entry.key

/-- Byte offset of the entry at index `i` of a segment: the sum of the
strides of the entries before it. -/
def offsetAt (seg : List Entry) (i : Nat) : Nat :=
  ((seg.take i).map Entry.stride).sum

/-- Loop of `create_data_structures_for_segment`: every 4th entry
(`idx % SPARSE_INDEX_RANGE_SIZE == 0`) is inserted into the sparse index
together with its starting byte offset. -/
def segIndexGo : List Entry → Nat → Nat → SparseIndex → SparseIndex
  | [], _, _, ix => ix
  | e :: rest, idx, elapsed, ix =>
    segIndexGo rest (idx + 1) (elapsed + e.stride)
      (if idx % 4 = 0 then sparseInsert ix e.key elapsed else ix)

/-- Sparse index built for a segment by
`create_data_structures_for_segment`. -/
def segIndex (seg : List Entry) : SparseIndex :=
  segIndexGo seg 0 0 []

/-- Embedding of the `file.seek(SeekFrom::Start(start))` before the bounded
scan: decoding resumes at byte offset `start`, which the segment lookup only
ever sets to the byte offset of an entry (an offset stored in the sparse
index, or 0). -/
def dropToOffset : List Entry → Nat → List Entry
  | [], _ => []
  | e :: rest, start => if start = 0 then e :: rest else dropToOffset rest (start - e.stride)

/-- The early-exit test of the bounded scan:
`end.is_some() && elapsed_bytes >= end.unwrap()`. -/
def stopHit (stop : Option Nat) (elapsed : Nat) : Bool :=
  match stop with
  | some e => decide (e ≤ elapsed)
  | none => false

/-- Loop body of `Segment::get`: stop when the accumulated bytes reach the
range's upper bound, return the payload of the first entry whose key equals
the target, and otherwise advance the byte counter by the entry's stride. -/
def scanEntries (key : Key) : List Entry → Nat → Option Nat → Option (Option Value)
  | [], _, _ => none
  | e :: rest, elapsed, stop =>
    if stopHit stop elapsed then none
    else
      match e with
      | .assignment k v =>
        if k = key then some (some v)
        else scanEntries key rest (elapsed + (Entry.assignment k v).stride) stop
      | .tombstone k =>
        if k = key then some none
        else scanEntries key rest (elapsed + (Entry.tombstone k).stride) stop

/-- Embedding of `Segment::get`: Bloom-filter early exit, sparse-index byte
range (a missing lower bound defaults to 0), then the bounded scan from
that offset. -/
def segmentGet (fp : List Key → Key → Bool) (seg : List Entry) (key : Key) :
    Option (Option Value) :=
  if !bloomContains fp (segKeys seg) key then none
  else
    let r := getByteRange (segIndex seg) key
    let start := r.1.getD 0
    scanEntries key (dropToOffset seg start) start r.2

/-! ### Store and engine (`store.rs`, `engine.rs`) -/

/-- A live segment file: its id (from the `segment-<id>.dat` filename) and
its decoded contents. -/
structure SegFile where
  id : Nat
  entries : List Entry
deriving DecidableEq

/-- State owned by the engine: the memtable with its capacity, the WAL
contents, and the store's segment list (oldest first, as in the
`VecDeque<PathBuf>`). -/
structure EngineState where
  memtable : MemtableMap
  capacity : Nat
  wal : List Entry
  segments : List SegFile
deriving DecidableEq

/-- Loop of `Store::get`: iterate the segment list newest-to-oldest
(`segments.iter().rev()`), return the first lookup that reports the key
(present or tombstoned). -/
def storeGetGo (fp : List Key → Key → Bool) (key : Key) : List SegFile → Option Value
  | [] => none
  | s :: rest =>
    match segmentGet fp s.entries key with
    | some v => v
    | none => storeGetGo fp key rest

/-- Embedding of `Store::get`. -/
def storeGet (fp : List Key → Key → Bool) (st : EngineState) (key : Key) : Option Value :=
  storeGetGo fp key st.segments.reverse

/-- Embedding of `Engine::get`: memtable first (a tombstone hit already
answers `None`), then the store. -/
def engineGet (fp : List Key → Key → Bool) (st : EngineState) (key : Key) : Option Value :=
  match memtableGet st.memtable key with
  | some v => v
  | none => storeGet fp st key

/-- The id chosen for a freshly flushed segment (`Store::write_memtable`):
`segments.iter().last().and_then(segment_id).unwrap_or(0) + 1`. -/
def nextSegmentId (ids : List Nat) : Nat :=
  ids.getLast?.getD 0 + 1

/-- An in-order memtable pair as it is written by `Store::write_memtable`:
`Some` becomes an assignment, `None` a tombstone. -/
def toEntry : Key × Option Value → Entry
  | (k, some v) => .assignment k v
  | (k, none) => .tombstone k

/-- Embedding of `Store::write_memtable`: append a fresh segment holding the
memtable's pairs in ascending key order (the `BTreeMap` iteration order),
then delete and recreate the WAL, leaving it empty. -/
def writeMemtable (st : EngineState) : EngineState :=
  { st with
    segments :=
      st.segments ++
        [⟨nextSegmentId (st.segments.map SegFile.id), st.memtable.map toEntry⟩],
    wal := [] }

/-- Embedding of `Engine::flush_memtable`: write the memtable to disk and
reset it. -/
def flushMemtable (st : EngineState) : EngineState :=
  { writeMemtable st with memtable := [] }

/-- Embedding of `Engine::set`: append to the WAL via `Store::set` (whose
codec checks fail *before* anything reaches the file, leaving all state
untouched), update the memtable, and flush when the memtable is full. The
returned pair mirrors the Rust `(Result<(), Error>, &mut self)` discipline:
on error the state component is the unchanged input state. -/
def engineSet (st : EngineState) (key value : Key) :
    Except WriteError Unit × EngineState :=
  match segmentWrite key value with
  | .error e => (.error e, st)
  | .ok entry =>
    let st1 : EngineState :=
      { st with wal := st.wal ++ [entry], memtable := memtableSet st.memtable key value }
    if memtableFull st1.memtable st1.capacity then (.ok (), flushMemtable st1)
    else (.ok (), st1)

/-- Embedding of `Engine::delete`: append a tombstone to the WAL via
`Store::delete`, update the memtable. No fullness check is performed. -/
def engineDelete (st : EngineState) (key : Key) :
    Except WriteError Unit × EngineState :=
  match segmentTombstone key with
  | .error e => (.error e, st)
  | .ok entry =>
    (.ok (),
      { st with wal := st.wal ++ [entry], memtable := memtableDelete st.memtable key })

/-- Embedding of `Engine::list`: the body is `Ok(Vec::new())`. -/
def engineList (_ : EngineState) : Except WriteError (List Key) :=
  .ok []

/-- A fresh engine over an empty data directory. -/
def emptyState (capacity : Nat) : EngineState :=
  ⟨[], capacity, [], []⟩

/-- A single-threaded write operation against the engine. -/
inductive Op where
  | set (key value : Key)
  | del (key : Key)

/-- Run one operation, keeping the state component whether or not the call
succeeded (a failing call leaves the state untouched). -/
def applyOp (st : EngineState) : Op → Except WriteError Unit × EngineState
  | .set k v => engineSet st k v
  | .del k => engineDelete st k

/-- Run a sequence of operations from a starting state. -/
def runOps (st : EngineState) (ops : List Op) : EngineState :=
  ops.foldl (fun s op => (applyOp s op).2) st

/-- Reference semantics of a write sequence at one key, folded over an
accumulator: the last `set` not shadowed by a later `delete` wins. -/
def refFold (key : Key) (init : Option Value) (ops : List Op) : Option Value :=
  ops.foldl
    (fun acc op =>
      match op with
      | .set k v => if k = key then some v else acc
      | .del k => if k = key then none else acc)
    init

/-- Reference lookup for a write sequence applied to an empty database. -/
def refLookup (ops : List Op) (key : Key) : Option Value :=
  refFold key none ops

/-- Operations whose key and value fit the codec's `u32` length limits, so
that the WAL writes succeed. -/
def opOk : Op → Prop
  | .set k v => k.length ≤ u32Max ∧ v.length ≤ u32Max
  | .del k => k.length ≤ u32Max

instance : DecidablePred opOk := by
  intro op
  cases op <;> simp only [opOk] <;> infer_instance

/-! ### Compaction (`compaction.rs`, `compact`) -/

/-- Inner loop of the two-way merge, structurally recursive on the newer
segment's stream; `f` continues the merge after the older stream advances
past `e1 :: r1`. -/
def compactMergeInner (e1 : Entry) (r1 : List Entry) (f : List Entry → List Entry) :
    List Entry → List Entry
  | [] => e1 :: r1
  | e2 :: r2 =>
    if e1.key < e2.key then e1 :: f (e2 :: r2)
    else if e2.key < e1.key then e2 :: compactMergeInner e1 r1 f r2
    else e2 :: f r2

/-- Embedding of the two-way merge in `compact`: compare the peeked keys;
on `Less` write the older segment's entry and advance it, on `Greater` the
newer one's, on `Equal` write the newer entry and advance both; when either
stream runs out, drain the other. (The loop is written with a structurally
recursive inner pass over the newer stream.) -/
def compactMerge : List Entry → List Entry → List Entry
  | [], l2 => l2
  | e1 :: r1, l2 => compactMergeInner e1 r1 (compactMerge r1) l2

/-! ### Store initialization (`initialize_store_at_path`, `store.rs`) -/

/-- Modelled from the spec: the filename helpers `is_segment_filename` and
`segment_id` (declared in `store.rs`'s imports but absent from the provided
sources) recognise names of the shape `segment-<id>.dat` with a `u32` id.
A directory child is abstracted to whether it is a regular file and its
parsed name. -/
inductive DirName where
  | segment (id : Nat)
  | other
deriving DecidableEq

/-- A directory child as observed by `read_dir`: its file type and name. -/
structure DirChild where
  isFile : Bool
  name : DirName
deriving DecidableEq

/-- Modelled from the spec plus `initialize_store_at_path` (`store.rs`): if
the directory is missing it is created and the list is empty; otherwise the
children that are regular files with a `segment-<id>.dat` name are collected
into the segment list in the order `read_dir` yields them. The source
applies no sorting. -/
def storeInitSegments (dirExists : Bool) (children : List DirChild) : List Nat :=
  if !dirExists then []
  else
    children.filterMap
      (fun c =>
        match c.name with
        | .segment id => if c.isFile then some id else none
        | .other => none)

/-- Reference lookup inside one segment: the payload of the unique entry
carrying the key (segments hold each key at most once). -/
def segLookup (seg : List Entry) (key : Key) : Option (Option Value) :=
  (seg.find? (fun e => decide (e.key = key))).map Entry.payload

/-- Newest-first lookup over a list of segment contents (newest listed
first), as the spec's `lookup_newest_first`: the first segment that reports
the key (live or tombstoned) decides. -/
def lookupNewestFirst (fp : List Key → Key → Bool) (segs : List (List Entry)) (key : Key) :
    Option (Option Value) :=
  segs.findSome? (fun s => segmentGet fp s key)

/-! ### Well-formedness predicates -/

/-- A `BTreeMap` model is strictly ascending by key. -/
def sortedMap {α : Type} (m : List (Key × α)) : Prop :=
  m.Pairwise (fun a b => a.1 < b.1)

/-- A well-formed segment: keys strictly ascending (hence unique). -/
def sortedSeg (seg : List Entry) : Prop :=
  seg.Pairwise (fun a b => a.key < b.key)

instance {α : Type} (m : List (Key × α)) : Decidable (sortedMap m) :=
  List.instDecidablePairwise m

instance (seg : List Entry) : Decidable (sortedSeg seg) :=
  List.instDecidablePairwise seg

/-- Engine-state invariant: the memtable and every segment are sorted. -/
def WFState (st : EngineState) : Prop :=
  sortedMap st.memtable ∧ ∀ sf ∈ st.segments, sortedSeg sf.entries

instance (st : EngineState) : Decidable (WFState st) := by
  unfold WFState
  infer_instance

/-! ### `BTreeMap` model lemmas -/

theorem btLookup_nil {α : Type} (k : Key) : btLookup ([] : List (Key × α)) k = none := rfl

theorem btLookup_cons {α : Type} (k' : Key) (v' : α) (rest : List (Key × α)) (k : Key) :
    btLookup ((k', v') :: rest) k = if k' = k then some v' else btLookup rest k := by
  by_cases h : k' = k
  · simp [btLookup, List.find?_cons_of_pos, h]
  · simp only [btLookup, if_neg h]
    rw [List.find?_cons_of_neg]
    simp [h]

theorem btLookup_btInsert {α : Type} (m : List (Key × α)) (k : Key) (v : α) (k' : Key) :
    btLookup (btInsert m k v) k' = if k' = k then some v else btLookup m k' := by
  induction m with
  | nil =>
    by_cases h : k' = k
    · simp [btInsert, btLookup_cons, h]
    · simp [btInsert, btLookup_cons, btLookup_nil, h, Ne.symm h]
  | cons p rest ih =>
    obtain ⟨k0, v0⟩ := p
    unfold btInsert
    rcases lt_trichotomy k k0 with hlt | heq | hgt
    · rw [if_pos hlt]
      by_cases h : k' = k
      · simp [btLookup_cons, h]
      · simp [btLookup_cons, h, Ne.symm h]
    · subst heq
      rw [if_neg (lt_irrefl k), if_neg (lt_irrefl k)]
      by_cases h : k' = k
      · simp [btLookup_cons, h]
      · simp [btLookup_cons, h, Ne.symm h]
    · rw [if_neg (not_lt.mpr (le_of_lt hgt)), if_pos hgt]
      have hne : k0 ≠ k := ne_of_lt hgt
      by_cases h : k' = k
      · subst h
        simp [btLookup_cons, ih, hne]
      · simp [btLookup_cons, ih, h]

theorem mem_btInsert {α : Type} {m : List (Key × α)} {k : Key} {v : α} {p : Key × α}
    (h : p ∈ btInsert m k v) : p = (k, v) ∨ p ∈ m := by
  induction m with
  | nil => simpa [btInsert] using h
  | cons q rest ih =>
    obtain ⟨k0, v0⟩ := q
    unfold btInsert at h
    by_cases h1 : k < k0
    · rw [if_pos h1] at h
      rcases List.mem_cons.mp h with h2 | h2
      · exact Or.inl h2
      · exact Or.inr h2
    · rw [if_neg h1] at h
      by_cases h3 : k0 < k
      · rw [if_pos h3] at h
        rcases List.mem_cons.mp h with h2 | h2
        · exact Or.inr (List.mem_cons.mpr (Or.inl h2))
        · rcases ih h2 with h4 | h4
          · exact Or.inl h4
          · exact Or.inr (List.mem_cons_of_mem _ h4)
      · rw [if_neg h3] at h
        rcases List.mem_cons.mp h with h2 | h2
        · exact Or.inl h2
        · exact Or.inr (List.mem_cons_of_mem _ h2)

theorem keys_btInsert {α : Type} {m : List (Key × α)} {k : Key} {v : α} {x : Key}
    (h : x ∈ (btInsert m k v).map Prod.fst) : x = k ∨ x ∈ m.map Prod.fst := by
  rcases List.mem_map.mp h with ⟨p, hp, hpx⟩
  rcases mem_btInsert hp with h' | h'
  · exact Or.inl (by rw [← hpx, h'])
  · exact Or.inr (List.mem_map.mpr ⟨p, h', hpx⟩)

theorem sortedMap_btInsert {α : Type} {m : List (Key × α)} (hm : sortedMap m) (k : Key) (v : α) :
    sortedMap (btInsert m k v) := by
  induction m with
  | nil => simp [btInsert, sortedMap]
  | cons q rest ih =>
    obtain ⟨k0, v0⟩ := q
    rw [sortedMap, List.pairwise_cons] at hm
    obtain ⟨hk0, hrest⟩ := hm
    unfold btInsert
    rcases lt_trichotomy k k0 with hlt | heq | hgt
    · rw [if_pos hlt]
      refine (List.pairwise_cons.mpr ⟨?_, List.pairwise_cons.mpr ⟨hk0, hrest⟩⟩)
      intro p hp
      rcases List.mem_cons.mp hp with h | h
      · rw [h]; exact hlt
      · exact lt_trans hlt (hk0 p h)
    · rw [if_neg (by simp [heq]), if_neg (by simp [heq])]
      refine List.pairwise_cons.mpr ⟨?_, hrest⟩
      intro p hp
      rw [heq]
      exact hk0 p hp
    · rw [if_neg (not_lt.mpr (le_of_lt hgt)), if_pos hgt]
      refine List.pairwise_cons.mpr ⟨?_, ih hrest⟩
      intro p hp
      rcases mem_btInsert hp with h | h
      · rw [h]; exact hgt
      · exact hk0 p h

theorem btInsert_append_of_gt {α : Type} {m : List (Key × α)} {k : Key}
    (h : ∀ p ∈ m, p.1 < k) (v : α) : btInsert m k v = m ++ [(k, v)] := by
  induction m with
  | nil => rfl
  | cons q rest ih =>
    have hq : q.1 < k := h q (List.mem_cons_self q rest)
    obtain ⟨k0, v0⟩ := q
    unfold btInsert
    rw [if_neg (not_lt.mpr (le_of_lt hq)), if_pos hq,
      ih (fun p hp => h p (List.mem_cons_of_mem _ hp))]
    rfl

/-! ### Write-path unfolding lemmas -/

theorem segmentWrite_ok {k v : Key} (hk : k.length ≤ u32Max) (hv : v.length ≤ u32Max) :
    segmentWrite k v = .ok (.assignment k v) := by
  unfold segmentWrite
  rw [if_neg (not_lt.mpr hk), if_neg (not_lt.mpr hv)]

theorem segmentTombstone_ok {k : Key} (hk : k.length ≤ u32Max) :
    segmentTombstone k = .ok (.tombstone k) := by
  unfold segmentTombstone
  rw [if_neg (not_lt.mpr hk)]

theorem engineSet_ok {st : EngineState} {k v : Key}
    (hk : k.length ≤ u32Max) (hv : v.length ≤ u32Max) :
    engineSet st k v =
      (if memtableFull (memtableSet st.memtable k v) st.capacity then
        (.ok (),
          flushMemtable
            { st with wal := st.wal ++ [.assignment k v],
                      memtable := memtableSet st.memtable k v })
      else
        (.ok (),
          { st with wal := st.wal ++ [.assignment k v],
                    memtable := memtableSet st.memtable k v })) := by
  unfold engineSet
  rw [segmentWrite_ok hk hv]

theorem engineDelete_ok {st : EngineState} {k : Key} (hk : k.length ≤ u32Max) :
    engineDelete st k =
      (.ok (),
        { st with wal := st.wal ++ [.tombstone k],
                  memtable := memtableDelete st.memtable k }) := by
  unfold engineDelete
  rw [segmentTombstone_ok hk]

/-! ### Greatest element of a sorted list -/

theorem pairwise_le_getLast :
    ∀ (l : List Nat), l.Pairwise (· < ·) → ∀ (hne : l ≠ []) (i : Nat),
      i ∈ l → i ≤ l.getLast hne := by
  intro l
  induction l with
  | nil => intro _ hne; exact absurd rfl hne
  | cons x t ih =>
    intro h hne i hi
    rcases List.pairwise_cons.mp h with ⟨hx, ht⟩
    rcases List.mem_cons.mp hi with hix | hit
    · subst hix
      cases t with
      | nil => simp [List.getLast]
      | cons y t' =>
        rw [List.getLast_cons (by simp)]
        exact le_of_lt (hx _ (List.getLast_mem (by simp)))
    · cases t with
      | nil => simp at hit
      | cons y t' =>
        rw [List.getLast_cons (by simp)]
        exact ih ht (by simp) i hit

/-! ### Claim C10 -/

/-- C10: for every engine state, the public `Engine::list` operation returns
`Ok` of the empty vector; it never reports any keys held by the database
(`engine.rs` lines 67-70, whose body is `Ok(Vec::new())`). -/
theorem c10_list_returns_empty (st : EngineState) : engineList st = Except.ok [] := rfl

/-! ### Claim C4 -/

/-- C4 (counterexample): the claim says an unknown indicator byte produces a
malformed-segment error rather than being treated as a normal end of file;
in fact decoding the one-byte stream `[0x02]` yields exactly the same
normal-end result as decoding the empty stream, and no error value exists in
the decoder's result type at all. -/
theorem c4_counterexample :
    entryIterNext [2] = NextResult.eod ∧ entryIterNext [] = NextResult.eod := by
  decide

/-- C4 (amended): an unknown indicator byte ends the scan exactly like a
normal end of file (a warning is logged; no error reaches the caller of
`get`), and an unexpected EOF in the middle of an entry panics the process
via `.unwrap()` instead of propagating an error. -/
theorem c4_codec_behavior :
    (∀ (b : Nat) (rest : List Nat), b ≠ 0 → b ≠ 1 →
      entryIterNext (b :: rest) = NextResult.eod) ∧
    entryIterNext [0] = NextResult.panicked ∧
    entryIterNext [1] = NextResult.panicked := by
  refine ⟨?_, by decide, by decide⟩
  intro b rest h0 h1
  simp only [entryIterNext]
  rw [if_neg h0, if_neg h1]

/-- C4 witness: the amended statement evaluated at indicator byte 7. -/
theorem c4_codec_behavior_witness : entryIterNext [7, 3] = NextResult.eod :=
  c4_codec_behavior.1 7 [3] (by decide) (by decide)

/-! ### Claim C5 -/

/-- C5 (counterexample): the claim says the engine triggers a flush exactly
when the full predicate holds after a mutation, including after every
delete. With capacity 1, a single `delete` leaves the memtable full (size
1 ≥ 1) yet no flush happens: the memtable keeps its tombstone and no
segment is created. -/
theorem c5_counterexample :
    memtableFull (engineDelete (emptyState 1) [97]).2.memtable 1 = true ∧
    (engineDelete (emptyState 1) [97]).2.segments = [] ∧
    (engineDelete (emptyState 1) [97]).2.memtable ≠ [] := by
  decide

/-- C5 (amended): the full predicate holds exactly when `size ≥ capacity`,
and the engine flushes exactly when the predicate holds after a `set`;
`delete` updates the WAL and the memtable but never checks fullness and
never triggers a flush. -/
theorem c5_flush_trigger :
    (∀ (m : MemtableMap) (cap : Nat), memtableFull m cap = true ↔ cap ≤ m.length) ∧
    (∀ (st : EngineState) (k v : Key), k.length ≤ u32Max → v.length ≤ u32Max →
      ((engineSet st k v).2.segments ≠ st.segments ↔
        memtableFull (memtableSet st.memtable k v) st.capacity = true)) ∧
    (∀ (st : EngineState) (k : Key), k.length ≤ u32Max →
      (engineDelete st k).2.segments = st.segments ∧
      (engineDelete st k).2.memtable = memtableDelete st.memtable k) := by
  refine ⟨?_, ?_, ?_⟩
  · intro m cap
    simp [memtableFull]
  · intro st k v hk hv
    rw [engineSet_ok hk hv]
    by_cases hfull : memtableFull (memtableSet st.memtable k v) st.capacity
    · rw [if_pos hfull]
      simp only [flushMemtable, writeMemtable, hfull, iff_true]
      intro hcontra
      have := congrArg List.length hcontra
      simp at this
    · rw [if_neg hfull]
      simp [hfull]
  · intro st k hk
    rw [engineDelete_ok hk]
    exact ⟨rfl, rfl⟩

/-- C5 witness: the amended statement evaluated on a concrete state with
capacity 1: the lone set flushes (the segment list grows), the delete does
not. -/
theorem c5_flush_trigger_witness :
    ((engineSet (emptyState 1) [97] [49]).2.segments ≠ (emptyState 1).segments ↔
      memtableFull (memtableSet (emptyState 1).memtable [97] [49]) 1 = true) ∧
    (engineDelete (emptyState 1) [98]).2.segments = (emptyState 1).segments := by
  refine ⟨c5_flush_trigger.2.1 (emptyState 1) [97] [49] (by decide) (by decide), ?_⟩
  exact (c5_flush_trigger.2.2 (emptyState 1) [98] (by decide)).1

/-! ### Claim C6 -/

/-- C6 (counterexample): the claim says the id of the segment created by a
flush is 0 when the segment list is empty; the code computes
`iter().last().and_then(segment_id).unwrap_or(0) + 1`, which is 1 on the
empty list. -/
theorem c6_counterexample : nextSegmentId [] = 1 ∧ nextSegmentId [] ≠ 0 := by
  decide

/-- C6 (amended): the id of a newly flushed segment is the id of the *last*
segment in the list plus one (1 when the list is empty); when the live list
is sorted strictly ascending — the intended invariant — this equals
`max(segment ids) + 1`. -/
theorem c6_next_segment_id :
    nextSegmentId [] = 1 ∧
    ∀ ids : List Nat, ids.Pairwise (· < ·) → ids ≠ [] →
      ∃ m ∈ ids, nextSegmentId ids = m + 1 ∧ ∀ i ∈ ids, i ≤ m := by
  refine ⟨rfl, ?_⟩
  intro ids hs hne
  refine ⟨ids.getLast hne, List.getLast_mem hne, ?_, pairwise_le_getLast ids hs hne⟩
  rw [nextSegmentId, List.getLast?_eq_getLast_of_ne_nil hne]
  rfl

/-- C6 witness: the amended statement evaluated on the sorted list `[0, 3]`:
the next id is 4 = max + 1. -/
theorem c6_next_segment_id_witness :
    ∃ m ∈ ([0, 3] : List Nat), nextSegmentId [0, 3] = m + 1 ∧ ∀ i ∈ ([0, 3] : List Nat), i ≤ m :=
  c6_next_segment_id.2 [0, 3] (by decide) (by decide)

/-! ### Claim C7 -/

/-- C7 (code bug): the spec says segment files found at store
initialization join the list sorted by id ascending, and `write_memtable`'s
own comment ("the highest one on disk + 1") relies on that order; but
`initialize_store_at_path` collects the `read_dir` children in enumeration
order and never sorts. A directory that enumerates `segment-2.dat` before
`segment-1.dat` yields the unsorted list `[2, 1]`. -/
theorem c7_init_does_not_sort :
    storeInitSegments true [⟨true, .segment 2⟩, ⟨true, .segment 1⟩] = [2, 1] ∧
    ¬ ([2, 1] : List Nat).Pairwise (· < ·) := by
  decide

/-! ### Claim C9 -/

/-- C9: when `set` fails with `TooLarge` (key or value longer than
`u32::MAX` bytes), the error is returned with the engine state exactly as
before the call: nothing reaches the WAL (the codec checks both lengths
before writing any byte of the frame) and the memtable is untouched. -/
theorem c9_too_large_no_mutation (st : EngineState) (k v : Key) :
    (u32Max < k.length →
      engineSet st k v = (.error (.tooLarge .key k.length u32Max), st)) ∧
    (k.length ≤ u32Max → u32Max < v.length →
      engineSet st k v = (.error (.tooLarge .value v.length u32Max), st)) := by
  constructor
  · intro hk
    unfold engineSet segmentWrite
    rw [if_pos hk]
  · intro hk hv
    unfold engineSet segmentWrite
    rw [if_neg (not_lt.mpr hk), if_pos hv]

/-- C9 witness: a key of 2^32 bytes is rejected and the state, here a fresh
engine, is returned unchanged. -/
theorem c9_too_large_no_mutation_witness :
    engineSet (emptyState 4) (List.replicate (2 ^ 32) 0) [] =
      (.error (.tooLarge .key (List.replicate (2 ^ 32) (0 : Nat)).length u32Max),
        emptyState 4) :=
  (c9_too_large_no_mutation (emptyState 4) (List.replicate (2 ^ 32) 0) []).1
    (by rw [List.length_replicate]; unfold u32Max; omega)

/-! ### Memtable-to-segment conversion lemmas -/

theorem toEntry_key (p : Key × Option Value) : (toEntry p).key = p.1 := by
  obtain ⟨k, v⟩ := p
  cases v <;> rfl

theorem toEntry_payload (p : Key × Option Value) : (toEntry p).payload = p.2 := by
  obtain ⟨k, v⟩ := p
  cases v <;> rfl

theorem toEntry_eq_assignment {p : Key × Option Value} {k : Key} {v : Value} :
    toEntry p = .assignment k v ↔ p = (k, some v) := by
  obtain ⟨a, b⟩ := p
  cases b <;> simp [toEntry]

theorem toEntry_eq_tombstone {p : Key × Option Value} {k : Key} :
    toEntry p = .tombstone k ↔ p = (k, none) := by
  obtain ⟨a, b⟩ := p
  cases b <;> simp [toEntry]

theorem sortedSeg_map_toEntry {m : MemtableMap} (h : sortedMap m) :
    sortedSeg (m.map toEntry) := by
  rw [sortedSeg, List.pairwise_map]
  exact List.Pairwise.imp (by intro a b hab; simpa [toEntry_key] using hab) h

/-! ### Claim C3 -/

/-- C3: after a successful flush of a sorted memtable, the WAL is empty, the
memtable is empty, and the sole new segment (appended at the back of the
list with the next id) holds exactly the memtable's pairs in strictly
ascending key order — an `Assignment` for each key bound to `Some value`, a
`Tombstone` for each key bound to `None`. -/
theorem c3_flush_postcondition (st : EngineState) (h : sortedMap st.memtable) :
    (flushMemtable st).wal = [] ∧
    (flushMemtable st).memtable = [] ∧
    (flushMemtable st).segments =
      st.segments ++
        [⟨nextSegmentId (st.segments.map SegFile.id), st.memtable.map toEntry⟩] ∧
    sortedSeg (st.memtable.map toEntry) ∧
    (∀ (k : Key) (v : Value),
      Entry.assignment k v ∈ st.memtable.map toEntry ↔ (k, some v) ∈ st.memtable) ∧
    (∀ k : Key,
      Entry.tombstone k ∈ st.memtable.map toEntry ↔
        (k, (none : Option Value)) ∈ st.memtable) := by
  refine ⟨rfl, rfl, rfl, sortedSeg_map_toEntry h, ?_, ?_⟩
  · intro k v
    simp only [List.mem_map]
    constructor
    · rintro ⟨p, hp, hpe⟩
      rwa [toEntry_eq_assignment.mp hpe] at hp
    · intro hm
      exact ⟨(k, some v), hm, rfl⟩
  · intro k
    simp only [List.mem_map]
    constructor
    · rintro ⟨p, hp, hpe⟩
      rwa [toEntry_eq_tombstone.mp hpe] at hp
    · intro hm
      exact ⟨(k, none), hm, rfl⟩

/-- C3 witness: flushing the concrete sorted memtable
`{"a" ↦ some "1", "b" ↦ tombstone}` empties the WAL and the memtable. -/
theorem c3_flush_postcondition_witness :
    (flushMemtable ⟨[([97], some [49]), ([98], none)], 4,
        [Entry.assignment [97] [49]], []⟩).wal = [] ∧
    (flushMemtable ⟨[([97], some [49]), ([98], none)], 4,
        [Entry.assignment [97] [49]], []⟩).memtable = [] :=
  ⟨(c3_flush_postcondition _ (by decide)).1, (c3_flush_postcondition _ (by decide)).2.1⟩

/-! ### Sorted-list extremum helpers -/

theorem mem_of_getLast?_eq {α : Type} :
    ∀ {l : List α} {a : α}, l.getLast? = some a → a ∈ l := by
  intro l
  induction l with
  | nil =>
    intro a h
    simp at h
  | cons x t ih =>
    intro a h
    cases t with
    | nil =>
      simp only [List.getLast?_singleton, Option.some.injEq] at h
      simp [h]
    | cons y t' =>
      rw [List.getLast?_cons_cons] at h
      exact List.mem_cons_of_mem _ (ih h)

theorem pairwise_getLast?_max {α : Type} :
    ∀ (l : List (Key × α)) (p : Key × α), sortedMap l → l.getLast? = some p →
      ∀ q ∈ l, q = p ∨ q.1 < p.1 := by
  intro l
  induction l with
  | nil =>
    intro p _ h
    simp at h
  | cons x t ih =>
    intro p hs h q hq
    rcases List.pairwise_cons.mp hs with ⟨hx, ht⟩
    cases t with
    | nil =>
      have hp : p = x := by simpa using h.symm
      have hqx : q = x := by simpa using hq
      exact Or.inl (hqx.trans hp.symm)
    | cons y t' =>
      rw [List.getLast?_cons_cons] at h
      rcases List.mem_cons.mp hq with hqx | hqt
      · right
        subst hqx
        exact hx p (mem_of_getLast?_eq h)
      · exact ih p ht h q hqt

theorem pairwise_head?_min {α : Type} (l : List (Key × α)) (p : Key × α)
    (hs : sortedMap l) (h : l.head? = some p) : ∀ q ∈ l, q = p ∨ p.1 < q.1 := by
  intro q hq
  cases l with
  | nil => simp at h
  | cons x t =>
    have hp : p = x := by simpa using h.symm
    subst hp
    rcases List.mem_cons.mp hq with h1 | h1
    · exact Or.inl h1
    · exact Or.inr ((List.pairwise_cons.mp hs).1 q h1)

/-! ### Claim C8 -/

/-- C8: on a sorted sparse index, `get_byte_range(K)` returns a `start` that
is the offset of the greatest indexed key ≤ K (`None` exactly when every
indexed key exceeds K) and an `end` that is the offset of the least indexed
key strictly greater than K (`None` exactly when no indexed key exceeds K);
on the empty index both components are `None`. -/
theorem c8_get_byte_range (ix : SparseIndex) (key : Key) (hs : sortedMap ix) :
    (match (getByteRange ix key).1 with
     | some off => ∃ p ∈ ix, p.1 ≤ key ∧ p.2 = off ∧ ∀ q ∈ ix, q.1 ≤ key → q.1 ≤ p.1
     | none => ∀ q ∈ ix, key < q.1) ∧
    (match (getByteRange ix key).2 with
     | some off => ∃ p ∈ ix, key < p.1 ∧ p.2 = off ∧ ∀ q ∈ ix, key < q.1 → p.1 ≤ q.1
     | none => ∀ q ∈ ix, q.1 ≤ key) ∧
    getByteRange ([] : SparseIndex) key = (none, none) := by
  refine ⟨?_, ?_, rfl⟩
  · cases hcase : (ix.filter (fun p => decide (p.1 ≤ key))).getLast? with
    | none =>
      have hnil := List.getLast?_eq_none_iff.mp hcase
      have := List.filter_eq_nil_iff.mp hnil
      simp only [getByteRange, hcase, Option.map_none']
      intro q hq
      exact lt_of_not_le (by simpa using this q hq)
    | some p =>
      have hpf : p ∈ ix.filter (fun p => decide (p.1 ≤ key)) := mem_of_getLast?_eq hcase
      rcases List.mem_filter.mp hpf with ⟨hpm, hple⟩
      simp only [getByteRange, hcase, Option.map_some']
      refine ⟨p, hpm, by simpa using hple, rfl, ?_⟩
      intro q hq hqle
      have hqf : q ∈ ix.filter (fun p => decide (p.1 ≤ key)) :=
        List.mem_filter.mpr ⟨hq, by simpa using hqle⟩
      rcases pairwise_getLast?_max _ p (List.Pairwise.filter _ hs) hcase q hqf with h1 | h1
      · rw [h1]
      · exact le_of_lt h1
  · cases hcase : (ix.filter (fun p => decide (key < p.1))).head? with
    | none =>
      have hnil := List.head?_eq_none_iff.mp hcase
      have := List.filter_eq_nil_iff.mp hnil
      simp only [getByteRange, hcase, Option.map_none']
      intro q hq
      exact le_of_not_lt (by simpa using this q hq)
    | some p =>
      have hpf : p ∈ ix.filter (fun p => decide (key < p.1)) :=
        List.mem_of_mem_head? (by rw [hcase]; rfl)
      rcases List.mem_filter.mp hpf with ⟨hpm, hplt⟩
      simp only [getByteRange, hcase, Option.map_some']
      refine ⟨p, hpm, by simpa using hplt, rfl, ?_⟩
      intro q hq hqlt
      have hqf : q ∈ ix.filter (fun p => decide (key < p.1)) :=
        List.mem_filter.mpr ⟨hq, by simpa using hqlt⟩
      rcases pairwise_head?_min _ p (List.Pairwise.filter _ hs) hcase q hqf with h1 | h1
      · rw [h1]
      · exact le_of_lt h1

/-- C8 witness: the spec's own example `{"hello" ↦ 0, "world" ↦ 1}` (keys
abbreviated to their first byte) queried between the two keys: the start
component is the offset 0 of the greatest indexed key below the target. -/
theorem c8_get_byte_range_witness :
    ∃ p ∈ [(([104], 0) : Key × Nat), ([119], 1)], p.1 ≤ [109] ∧ p.2 = 0 ∧
      ∀ q ∈ [(([104], 0) : Key × Nat), ([119], 1)], q.1 ≤ [109] → q.1 ≤ p.1 :=
  (c8_get_byte_range [([104], 0), ([119], 1)] [109] (by decide)).1

/-! ### Byte-offset arithmetic for segments -/

theorem Entry.stride_pos (e : Entry) : 0 < e.stride := by
  cases e <;> simp [Entry.stride]

theorem offsetAt_zero (seg : List Entry) : offsetAt seg 0 = 0 := rfl

theorem offsetAt_cons_succ (e : Entry) (rest : List Entry) (j : Nat) :
    offsetAt (e :: rest) (j + 1) = e.stride + offsetAt rest j := by
  simp [offsetAt, List.take_succ_cons]

theorem offsetAt_add {seg : List Entry} {s i : Nat} (h : s ≤ i) :
    offsetAt seg i =
      offsetAt seg s + (((seg.take i).drop s).map Entry.stride).sum := by
  have hsplit : seg.take i = seg.take s ++ (seg.take i).drop s := by
    conv_lhs => rw [← List.take_append_drop s (seg.take i)]
    rw [List.take_take, min_eq_left h]
  conv_lhs => rw [offsetAt, hsplit]
  rw [List.map_append, List.sum_append]
  rfl

theorem offsetAt_le_mono {seg : List Entry} {s i : Nat} (h : s ≤ i) :
    offsetAt seg s ≤ offsetAt seg i := by
  rw [offsetAt_add h]
  exact Nat.le_add_right _ _

theorem offsetAt_lt_mono {seg : List Entry} {s i : Nat} (h : s < i) (hi : i ≤ seg.length) :
    offsetAt seg s < offsetAt seg i := by
  rw [offsetAt_add (le_of_lt h)]
  have hlen : ((seg.take i).drop s).length = i - s := by
    rw [List.length_drop, List.length_take, min_eq_left hi]
  have hne : ((seg.take i).drop s).map Entry.stride ≠ [] := by
    intro hc
    have := congrArg List.length hc
    simp [hlen] at this
    omega
  have hsum : 0 < (((seg.take i).drop s).map Entry.stride).sum := by
    refine List.sum_pos _ ?_ hne
    intro x hx
    rcases List.mem_map.mp hx with ⟨e, _, he⟩
    rw [← he]
    exact Entry.stride_pos e
  omega

theorem dropToOffset_offsetAt :
    ∀ (seg : List Entry) (i : Nat), i ≤ seg.length →
      dropToOffset seg (offsetAt seg i) = seg.drop i := by
  intro seg
  induction seg with
  | nil =>
    intro i _
    simp [dropToOffset]
  | cons e rest ih =>
    intro i hi
    cases i with
    | zero => simp [dropToOffset, offsetAt_zero]
    | succ j =>
      rw [offsetAt_cons_succ]
      have hpos : e.stride + offsetAt rest j ≠ 0 := by
        have := Entry.stride_pos e
        omega
      show dropToOffset (e :: rest) (e.stride + offsetAt rest j) = _
      rw [dropToOffset, if_neg hpos, Nat.add_sub_cancel_left,
        ih j (Nat.succ_le_succ_iff.mp (by simpa using hi))]
      rfl

/-! ### Bounded-scan lemmas -/

theorem scanEntries_cons_assignment (key k v : Key) (rest : List Entry) (elapsed : Nat)
    (stop : Option Nat) :
    scanEntries key (.assignment k v :: rest) elapsed stop =
      if stopHit stop elapsed then none
      else if k = key then some (some v)
      else scanEntries key rest (elapsed + (Entry.assignment k v).stride) stop := rfl

theorem scanEntries_cons_tombstone (key k : Key) (rest : List Entry) (elapsed : Nat)
    (stop : Option Nat) :
    scanEntries key (.tombstone k :: rest) elapsed stop =
      if stopHit stop elapsed then none
      else if k = key then some none
      else scanEntries key rest (elapsed + (Entry.tombstone k).stride) stop := rfl

theorem scanEntries_none {key : Key} :
    ∀ {l : List Entry} {elapsed : Nat} {stop : Option Nat},
      (∀ e ∈ l, e.key ≠ key) → scanEntries key l elapsed stop = none := by
  intro l
  induction l with
  | nil => intro _ _ _; rfl
  | cons e rest ih =>
    intro elapsed stop h
    have hek : e.key ≠ key := h e (List.mem_cons_self e rest)
    have hrest := fun x hx => h x (List.mem_cons_of_mem e hx)
    cases e with
    | assignment k v =>
      rw [scanEntries_cons_assignment]
      by_cases hstop : stopHit stop elapsed
      · rw [if_pos hstop]
      · rw [if_neg hstop, if_neg (by simpa [Entry.key] using hek)]
        exact ih hrest
    | tombstone k =>
      rw [scanEntries_cons_tombstone]
      by_cases hstop : stopHit stop elapsed
      · rw [if_pos hstop]
      · rw [if_neg hstop, if_neg (by simpa [Entry.key] using hek)]
        exact ih hrest

theorem stopHit_false {stop : Option Nat} {elapsed : Nat}
    (h : ∀ E, stop = some E → elapsed < E) : stopHit stop elapsed = false := by
  cases stop with
  | none => rfl
  | some E => simpa [stopHit] using h E rfl

theorem scanEntries_hit :
    ∀ (pre : List Entry) {e : Entry} (post : List Entry) {key : Key} (base : Nat)
      (stop : Option Nat), e.key = key → (∀ x ∈ pre, x.key ≠ key) →
      (∀ E, stop = some E → base + (pre.map Entry.stride).sum < E) →
      scanEntries key (pre ++ e :: post) base stop = some e.payload := by
  intro pre
  induction pre with
  | nil =>
    intro e post key base stop he _ hstop
    have hbase : stopHit stop base = false :=
      stopHit_false (fun E hE => by simpa using hstop E hE)
    cases e with
    | assignment k v =>
      rw [List.nil_append, scanEntries_cons_assignment, if_neg (by simp [hbase]),
        if_pos (by simpa [Entry.key] using he)]
      rfl
    | tombstone k =>
      rw [List.nil_append, scanEntries_cons_tombstone, if_neg (by simp [hbase]),
        if_pos (by simpa [Entry.key] using he)]
      rfl
  | cons x pre' ih =>
    intro e post key base stop he hpre hstop
    have hxk : x.key ≠ key := hpre x (List.mem_cons_self x pre')
    have hbase : stopHit stop base = false := by
      refine stopHit_false ?_
      intro E hE
      have := hstop E hE
      simp [List.map_cons, List.sum_cons] at this
      omega
    have hrec : ∀ E, stop = some E →
        (base + x.stride) + (pre'.map Entry.stride).sum < E := by
      intro E hE
      have := hstop E hE
      simp [List.map_cons, List.sum_cons] at this
      omega
    cases x with
    | assignment k v =>
      rw [List.cons_append, scanEntries_cons_assignment, if_neg (by simp [hbase]),
        if_neg (by simpa [Entry.key] using hxk)]
      exact ih post (base + (Entry.assignment k v).stride) stop he
        (fun y hy => hpre y (List.mem_cons_of_mem _ hy)) hrec
    | tombstone k =>
      rw [List.cons_append, scanEntries_cons_tombstone, if_neg (by simp [hbase]),
        if_neg (by simpa [Entry.key] using hxk)]
      exact ih post (base + (Entry.tombstone k).stride) stop he
        (fun y hy => hpre y (List.mem_cons_of_mem _ hy)) hrec

/-! ### Sparse-index soundness: every indexed offset is a real entry offset -/

theorem segIndexGo_cons (e : Entry) (rest : List Entry) (idx elapsed : Nat)
    (ix : SparseIndex) :
    segIndexGo (e :: rest) idx elapsed ix =
      segIndexGo rest (idx + 1) (elapsed + e.stride)
        (if idx % 4 = 0 then sparseInsert ix e.key elapsed else ix) := rfl

theorem segIndexGo_mem :
    ∀ (seg : List Entry) (idx elapsed : Nat) (ix : SparseIndex) (p : Key × Nat),
      p ∈ segIndexGo seg idx elapsed ix →
      p ∈ ix ∨ ∃ j, ∃ hj : j < seg.length,
        p.1 = seg[j].key ∧ p.2 = elapsed + offsetAt seg j := by
  intro seg
  induction seg with
  | nil =>
    intro idx elapsed ix p h
    exact Or.inl h
  | cons e rest ih =>
    intro idx elapsed ix p h
    rw [segIndexGo_cons] at h
    rcases ih _ _ _ p h with hin | ⟨j, hj, h1, h2⟩
    · by_cases h4 : idx % 4 = 0
      · rw [if_pos h4] at hin
        rcases mem_btInsert hin with heq | hin'
        · right
          subst heq
          exact ⟨0, by simp, by simp, by simp [offsetAt_zero]⟩
        · exact Or.inl hin'
      · rw [if_neg h4] at hin
        exact Or.inl hin
    · right
      refine ⟨j + 1, by simpa using Nat.succ_lt_succ hj, by simpa using h1, ?_⟩
      rw [offsetAt_cons_succ]
      omega

theorem segIndex_mem {seg : List Entry} {p : Key × Nat} (h : p ∈ segIndex seg) :
    ∃ j, ∃ hj : j < seg.length, p.1 = seg[j].key ∧ p.2 = offsetAt seg j := by
  rcases segIndexGo_mem seg 0 0 [] p h with h' | ⟨j, hj, h1, h2⟩
  · simp at h'
  · exact ⟨j, hj, h1, by simpa using h2⟩

theorem getByteRange_start_spec (seg : List Entry) (key : Key) :
    (getByteRange (segIndex seg) key).1 = none ∨
    ∃ j, ∃ hj : j < seg.length,
      (getByteRange (segIndex seg) key).1 = some (offsetAt seg j) ∧
        seg[j].key ≤ key := by
  cases hcase : (getByteRange (segIndex seg) key).1 with
  | none => exact Or.inl rfl
  | some off =>
    right
    have hmap : ∃ p, ((segIndex seg).filter (fun p => decide (p.1 ≤ key))).getLast? = some p ∧
        p.2 = off := by
      simp only [getByteRange] at hcase
      exact Option.map_eq_some'.mp hcase
    rcases hmap with ⟨p, hp, hpoff⟩
    rcases List.mem_filter.mp (mem_of_getLast?_eq hp) with ⟨hpm, hple⟩
    rcases segIndex_mem hpm with ⟨j, hj, h1, h2⟩
    refine ⟨j, hj, by rw [← hpoff, h2], ?_⟩
    rw [← h1]
    simpa using hple

theorem getByteRange_stop_spec (seg : List Entry) (key : Key) :
    ∀ E, (getByteRange (segIndex seg) key).2 = some E →
      ∃ j, ∃ hj : j < seg.length, E = offsetAt seg j ∧ key < seg[j].key := by
  intro E hE
  simp only [getByteRange] at hE
  rcases Option.map_eq_some'.mp hE with ⟨p, hp, hpoff⟩
  have hpmem : p ∈ (segIndex seg).filter (fun p => decide (key < p.1)) :=
    List.mem_of_mem_head? (by rw [hp]; rfl)
  rcases List.mem_filter.mp hpmem with ⟨hpm, hplt⟩
  rcases segIndex_mem hpm with ⟨j, hj, h1, h2⟩
  refine ⟨j, hj, by rw [← hpoff, h2], ?_⟩
  rw [← h1]
  simpa using hplt

/-! ### Sorted-segment index facts -/

theorem sortedSeg_key_lt {seg : List Entry} (hs : sortedSeg seg) {i j : Nat}
    (hi : i < seg.length) (hj : j < seg.length) (hij : i < j) :
    seg[i].key < seg[j].key :=
  List.pairwise_iff_getElem.mp hs i j hi hj hij

theorem sortedSeg_index_le {seg : List Entry} (hs : sortedSeg seg) {i j : Nat}
    (hi : i < seg.length) (hj : j < seg.length)
    (h : seg[j].key ≤ seg[i].key) : j ≤ i := by
  by_contra hc
  push_neg at hc
  exact absurd (sortedSeg_key_lt hs hi hj hc) (not_lt.mpr h)

theorem dropToOffset_zero (seg : List Entry) : dropToOffset seg 0 = seg := by
  cases seg <;> simp [dropToOffset]

theorem find?_pre_hit {pre : List Entry} {e : Entry} {post : List Entry} {key : Key}
    (he : e.key = key) (hpre : ∀ x ∈ pre, x.key ≠ key) :
    (pre ++ e :: post).find? (fun x => decide (x.key = key)) = some e := by
  induction pre with
  | nil =>
    rw [List.nil_append]
    exact List.find?_cons_of_pos _ (by simpa using he)
  | cons x pre' ih =>
    rw [List.cons_append,
      List.find?_cons_of_neg _ (by simpa using hpre x (List.mem_cons_self x pre'))]
    exact ih (fun y hy => hpre y (List.mem_cons_of_mem _ hy))

theorem bloomContains_of_mem {fp : List Key → Key → Bool} {keys : List Key} {k : Key}
    (h : k ∈ keys) : bloomContains fp keys k = true := by
  simp [bloomContains, h]

/-! ### Segment lookup correctness -/

/-- The Bloom check, the sparse-index byte range, and the bounded scan of
`Segment::get` together compute exactly the payload of the segment's unique
entry for the key (or report absence), for every sorted segment and every
false-positive oracle. -/
theorem segmentGet_eq_segLookup (fp : List Key → Key → Bool) {seg : List Entry}
    (hs : sortedSeg seg) (key : Key) :
    segmentGet fp seg key = segLookup seg key := by
  by_cases hmem : key ∈ segKeys seg
  · have hfind : ∃ e ∈ seg, e.key = key := by
      simpa [segKeys] using hmem
    obtain ⟨e, he, hek⟩ := hfind
    obtain ⟨i, hi, hie⟩ := List.mem_iff_getElem.mp he
    have hikey : seg[i].key = key := by rw [hie]; exact hek
    simp only [segmentGet]
    rw [if_neg (by simp [bloomContains_of_mem hmem])]
    have hstart : ∃ s, s ≤ i ∧
        (getByteRange (segIndex seg) key).1.getD 0 = offsetAt seg s := by
      rcases getByteRange_start_spec seg key with hnone | ⟨j, hj, hsome, hjle⟩
      · exact ⟨0, Nat.zero_le i, by simp [hnone, offsetAt_zero]⟩
      · exact ⟨j, sortedSeg_index_le hs hi hj (by rw [hikey]; exact hjle), by simp [hsome]⟩
    obtain ⟨s, hsi, hsoff⟩ := hstart
    have hslen : s ≤ seg.length := le_trans hsi (le_of_lt hi)
    rw [hsoff, dropToOffset_offsetAt seg s hslen]
    have hdecomp : seg.drop s = (seg.take i).drop s ++ seg[i] :: seg.drop (i + 1) := by
      conv_lhs => rw [← List.take_append_drop i seg]
      rw [List.drop_append_eq_append_drop, List.length_take,
        min_eq_left (le_of_lt hi), Nat.sub_eq_zero_of_le hsi, List.drop_zero,
        List.drop_eq_getElem_cons hi]
    have hpre0 : ∀ x ∈ seg.take i, x.key ≠ key := by
      intro x hx
      obtain ⟨jx, hjx, hjxe⟩ := List.mem_iff_getElem.mp hx
      have hjxi : jx < i := by
        have := hjx
        rw [List.length_take] at this
        omega
      have hjxlen : jx < seg.length := lt_trans hjxi hi
      have hlt : seg[jx].key < key := by
        rw [← hikey]
        exact sortedSeg_key_lt hs hjxlen hi hjxi
      rw [← hjxe, List.getElem_take]
      exact ne_of_lt hlt
    have hpre : ∀ x ∈ (seg.take i).drop s, x.key ≠ key :=
      fun x hx => hpre0 x (List.mem_of_mem_drop hx)
    have hstop : ∀ E, (getByteRange (segIndex seg) key).2 = some E →
        offsetAt seg s + (((seg.take i).drop s).map Entry.stride).sum < E := by
      intro E hE
      rcases getByteRange_stop_spec seg key E hE with ⟨j', hj', hEoff, hkeyj⟩
      have hij' : i < j' := by
        by_contra hc
        push_neg at hc
        have hle : seg[j'].key ≤ seg[i].key := by
          rcases lt_or_eq_of_le hc with hlt | heq2
          · exact le_of_lt (sortedSeg_key_lt hs hj' hi hlt)
          · subst heq2
            exact le_refl _
        rw [hikey] at hle
        exact absurd hkeyj (not_lt.mpr hle)
      rw [← offsetAt_add hsi, hEoff]
      exact offsetAt_lt_mono hij' (le_of_lt hj')
    rw [hdecomp, scanEntries_hit ((seg.take i).drop s) (seg.drop (i + 1))
      (offsetAt seg s) (getByteRange (segIndex seg) key).2 hikey hpre hstop]
    have hdecomp0 : seg = seg.take i ++ seg[i] :: seg.drop (i + 1) := by
      conv_lhs => rw [← List.take_append_drop i seg]
      rw [List.drop_eq_getElem_cons hi]
    rw [segLookup]
    conv_rhs => rw [hdecomp0]
    rw [find?_pre_hit hikey hpre0, Option.map_some']
  · have hkeys : ∀ x ∈ seg, x.key ≠ key := by
      intro x hx hc
      exact hmem (by rw [← hc]; exact List.mem_map_of_mem Entry.key hx)
    have hfind : seg.find? (fun e => decide (e.key = key)) = none :=
      List.find?_eq_none.mpr (fun x hx => by simpa using hkeys x hx)
    simp only [segmentGet]
    by_cases hfp : bloomContains fp (segKeys seg) key = true
    · rw [if_neg (by simp [hfp])]
      have hb : ∃ s, s ≤ seg.length ∧
          dropToOffset seg ((getByteRange (segIndex seg) key).1.getD 0) = seg.drop s := by
        rcases getByteRange_start_spec seg key with hnone | ⟨j, hj, hsome, _⟩
        · exact ⟨0, Nat.zero_le _, by simp [hnone, dropToOffset_zero]⟩
        · refine ⟨j, le_of_lt hj, ?_⟩
          rw [hsome]
          simpa using dropToOffset_offsetAt seg j (le_of_lt hj)
      obtain ⟨s, _, hdrop⟩ := hb
      rw [hdrop, scanEntries_none (fun x hx => hkeys x (List.mem_of_mem_drop hx)),
        segLookup, hfind]
      rfl
    · rw [if_pos (by simp [Bool.not_eq_true] at hfp; simp [hfp]), segLookup, hfind]
      rfl

/-! ### Memtable contents seen through the segment codec -/

theorem segLookup_map_toEntry (m : MemtableMap) (k : Key) :
    segLookup (m.map toEntry) k = btLookup m k := by
  rw [segLookup, List.find?_map]
  have hcomp : ((fun e => decide (e.key = k)) ∘ toEntry) =
      fun p : Key × Option Value => decide (p.1 = k) := by
    funext p
    simp [Function.comp, toEntry_key]
  rw [hcomp, Option.map_map]
  have hpay : (Entry.payload ∘ toEntry) = (Prod.snd : Key × Option Value → Option Value) := by
    funext p
    simp [Function.comp, toEntry_payload]
  rw [hpay, btLookup]

/-! ### Engine-step lemmas -/

theorem WFState_flushMemtable {st : EngineState} (hwf : WFState st) :
    WFState (flushMemtable st) := by
  refine ⟨List.Pairwise.nil, ?_⟩
  intro sf hsf
  simp only [flushMemtable, writeMemtable] at hsf
  rcases List.mem_append.mp hsf with h | h
  · exact hwf.2 sf h
  · rcases List.mem_singleton.mp h with rfl
    exact sortedSeg_map_toEntry hwf.1

theorem engineGet_flushMemtable (fp : List Key → Key → Bool) {st : EngineState}
    (hwf : WFState st) (key : Key) :
    engineGet fp (flushMemtable st) key = engineGet fp st key := by
  show storeGet fp (flushMemtable st) key = engineGet fp st key
  rw [storeGet]
  have hsegsrev : (flushMemtable st).segments.reverse =
      (⟨nextSegmentId (st.segments.map SegFile.id), st.memtable.map toEntry⟩ : SegFile) ::
        st.segments.reverse := by
    show (st.segments ++ [_]).reverse = _
    rw [List.reverse_append]
    rfl
  rw [hsegsrev, storeGetGo]
  rw [show segmentGet fp
        ((⟨nextSegmentId (st.segments.map SegFile.id), st.memtable.map toEntry⟩ :
          SegFile).entries) key = btLookup st.memtable key from
      (segmentGet_eq_segLookup fp (sortedSeg_map_toEntry hwf.1) key).trans
        (segLookup_map_toEntry st.memtable key)]
  cases hbt : btLookup st.memtable key with
  | some v => simp [engineGet, memtableGet, hbt]
  | none => simp [engineGet, memtableGet, storeGet, hbt]

theorem engineGet_set_state (fp : List Key → Key → Bool) (st : EngineState) (k v key : Key) :
    engineGet fp
      { st with wal := st.wal ++ [.assignment k v],
                memtable := memtableSet st.memtable k v } key =
      if k = key then some v else engineGet fp st key := by
  simp only [engineGet]
  rw [show memtableGet
        ({ st with wal := st.wal ++ [.assignment k v],
                   memtable := memtableSet st.memtable k v } : EngineState).memtable key =
      if key = k then some (some v) else memtableGet st.memtable key from
      btLookup_btInsert st.memtable k (some v) key]
  by_cases hkey : k = key
  · subst hkey
    rw [if_pos rfl, if_pos rfl]
  · rw [if_neg (fun hh => hkey hh.symm), if_neg hkey]
    rfl

theorem engineGet_delete_state (fp : List Key → Key → Bool) (st : EngineState) (k key : Key) :
    engineGet fp
      { st with wal := st.wal ++ [.tombstone k],
                memtable := memtableDelete st.memtable k } key =
      if k = key then none else engineGet fp st key := by
  simp only [engineGet]
  rw [show memtableGet
        ({ st with wal := st.wal ++ [.tombstone k],
                   memtable := memtableDelete st.memtable k } : EngineState).memtable key =
      if key = k then some none else memtableGet st.memtable key from
      btLookup_btInsert st.memtable k none key]
  by_cases hkey : k = key
  · subst hkey
    rw [if_pos rfl, if_pos rfl]
  · rw [if_neg (fun hh => hkey hh.symm), if_neg hkey]
    rfl

theorem WFState_engineSet {st : EngineState} (hwf : WFState st) (k v : Key) :
    WFState (engineSet st k v).2 := by
  unfold engineSet
  cases segmentWrite k v with
  | error e => exact hwf
  | ok entry =>
    dsimp only
    have hwf1 : WFState
        { st with wal := st.wal ++ [entry], memtable := memtableSet st.memtable k v } :=
      ⟨sortedMap_btInsert hwf.1 k (some v), hwf.2⟩
    by_cases hfull :
        memtableFull (memtableSet st.memtable k v) st.capacity
    · rw [if_pos hfull]
      exact WFState_flushMemtable hwf1
    · rw [if_neg hfull]
      exact hwf1

theorem WFState_engineDelete {st : EngineState} (hwf : WFState st) (k : Key) :
    WFState (engineDelete st k).2 := by
  unfold engineDelete
  cases segmentTombstone k with
  | error e => exact hwf
  | ok entry => exact ⟨sortedMap_btInsert hwf.1 k none, hwf.2⟩

theorem WFState_applyOp {st : EngineState} (hwf : WFState st) (op : Op) :
    WFState (applyOp st op).2 := by
  cases op with
  | set k v => exact WFState_engineSet hwf k v
  | del k => exact WFState_engineDelete hwf k

theorem engineGet_applyOp (fp : List Key → Key → Bool) {st : EngineState}
    (hwf : WFState st) {op : Op} (hop : opOk op) (key : Key) :
    engineGet fp (applyOp st op).2 key =
      (match op with
       | .set k v => if k = key then some v else engineGet fp st key
       | .del k => if k = key then none else engineGet fp st key) := by
  cases op with
  | set k v =>
    obtain ⟨hk, hv⟩ := hop
    show engineGet fp (engineSet st k v).2 key = _
    rw [engineSet_ok hk hv]
    by_cases hfull : memtableFull (memtableSet st.memtable k v) st.capacity
    · rw [if_pos hfull]
      show engineGet fp
        (flushMemtable
          { st with wal := st.wal ++ [.assignment k v],
                    memtable := memtableSet st.memtable k v }) key = _
      have hwf1 : WFState
          { st with wal := st.wal ++ [Entry.assignment k v],
                    memtable := memtableSet st.memtable k v } :=
        ⟨sortedMap_btInsert hwf.1 k (some v), hwf.2⟩
      rw [engineGet_flushMemtable fp hwf1 key, engineGet_set_state]
    · rw [if_neg hfull]
      exact engineGet_set_state fp st k v key
  | del k =>
    show engineGet fp (engineDelete st k).2 key = _
    rw [engineDelete_ok hop]
    exact engineGet_delete_state fp st k key

theorem runOps_get (fp : List Key → Key → Bool) (key : Key) :
    ∀ (ops : List Op) (st : EngineState), WFState st → (∀ op ∈ ops, opOk op) →
      engineGet fp (runOps st ops) key = refFold key (engineGet fp st key) ops := by
  intro ops
  induction ops with
  | nil =>
    intro st _ _
    rfl
  | cons op ops' ih =>
    intro st hwf hops
    have hstep := engineGet_applyOp fp hwf (hops op (List.mem_cons_self op ops')) key
    rw [show runOps st (op :: ops') = runOps (applyOp st op).2 ops' from rfl,
      ih (applyOp st op).2 (WFState_applyOp hwf op)
        (fun o ho => hops o (List.mem_cons_of_mem _ ho)),
      hstep]
    cases op with
    | set k v => rfl
    | del k => rfl

/-! ### Claim C1 -/

/-- C1: for every finite sequence of single-threaded `set`/`delete`
operations (whose keys and values fit the codec limits) applied to a fresh
engine — with flushes happening automatically whenever the memtable fills,
and no compaction — `get(K)` returns `Some v` where `set(K, v)` is the last
set of K not shadowed by a later `delete(K)`, and `None` if the last
relevant operation was a delete or K never appeared. The statement is
quantified over every Bloom-filter false-positive oracle `fp`. -/
theorem c1_engine_get_last_write_wins (ops : List Op) (capacity : Nat)
    (fp : List Key → Key → Bool) (key : Key) (hops : ∀ op ∈ ops, opOk op) :
    engineGet fp (runOps (emptyState capacity) ops) key = refLookup ops key := by
  rw [runOps_get fp key ops (emptyState capacity)
    ⟨List.Pairwise.nil, by intro sf h; simp [emptyState] at h⟩ hops]
  rfl

/-- C1 witness: with capacity 2 the second set flushes a segment; deleting
"a" then leaves `get "a" = none` and `get "b" = some "2"` served from the
flushed segment, matching the reference last-write-wins lookup. -/
theorem c1_engine_get_last_write_wins_witness :
    engineGet (fun _ _ => false)
      (runOps (emptyState 2) [.set [97] [49], .set [98] [50], .del [97]]) [98] =
      refLookup [.set [97] [49], .set [98] [50], .del [97]] [98] :=
  c1_engine_get_last_write_wins [.set [97] [49], .set [98] [50], .del [97]] 2
    (fun _ _ => false) [98] (by decide)

/-! ### Compaction merge lemmas -/

theorem compactMerge_nil_left (l2 : List Entry) : compactMerge [] l2 = l2 := rfl

theorem compactMerge_nil_right (l1 : List Entry) : compactMerge l1 [] = l1 := by
  cases l1 <;> rfl

theorem compactMerge_cons_cons (e1 : Entry) (r1 : List Entry) (e2 : Entry) (r2 : List Entry) :
    compactMerge (e1 :: r1) (e2 :: r2) =
      if e1.key < e2.key then e1 :: compactMerge r1 (e2 :: r2)
      else if e2.key < e1.key then e2 :: compactMerge (e1 :: r1) r2
      else e2 :: compactMerge r1 r2 := rfl

theorem mem_compactMerge :
    ∀ (A B : List Entry) (x : Entry), x ∈ compactMerge A B → x ∈ A ∨ x ∈ B := by
  intro A
  induction A with
  | nil =>
    intro B x h
    exact Or.inr (by simpa [compactMerge_nil_left] using h)
  | cons e1 r1 ihA =>
    intro B
    induction B with
    | nil =>
      intro x h
      exact Or.inl (by simpa [compactMerge_nil_right] using h)
    | cons e2 r2 ihB =>
      intro x h
      rw [compactMerge_cons_cons] at h
      by_cases h12 : e1.key < e2.key
      · rw [if_pos h12] at h
        rcases List.mem_cons.mp h with h' | h'
        · exact Or.inl (by simp [h'])
        · rcases ihA _ x h' with h'' | h''
          · exact Or.inl (List.mem_cons_of_mem _ h'')
          · exact Or.inr h''
      · rw [if_neg h12] at h
        by_cases h21 : e2.key < e1.key
        · rw [if_pos h21] at h
          rcases List.mem_cons.mp h with h' | h'
          · exact Or.inr (by simp [h'])
          · rcases ihB x h' with h'' | h''
            · exact Or.inl h''
            · exact Or.inr (List.mem_cons_of_mem _ h'')
        · rw [if_neg h21] at h
          rcases List.mem_cons.mp h with h' | h'
          · exact Or.inr (by simp [h'])
          · rcases ihA r2 x h' with h'' | h''
            · exact Or.inl (List.mem_cons_of_mem _ h'')
            · exact Or.inr (List.mem_cons_of_mem _ h'')

theorem sortedSeg_compactMerge :
    ∀ (A B : List Entry), sortedSeg A → sortedSeg B → sortedSeg (compactMerge A B) := by
  intro A
  induction A with
  | nil =>
    intro B _ hB
    simpa [compactMerge_nil_left] using hB
  | cons e1 r1 ihA =>
    intro B
    induction B with
    | nil =>
      intro hA _
      simpa [compactMerge_nil_right] using hA
    | cons e2 r2 ihB =>
      intro hA hB
      rcases List.pairwise_cons.mp hA with ⟨h1all, hr1⟩
      rcases List.pairwise_cons.mp hB with ⟨h2all, hr2⟩
      rw [compactMerge_cons_cons]
      by_cases h12 : e1.key < e2.key
      · rw [if_pos h12]
        refine List.pairwise_cons.mpr ⟨?_, ihA _ hr1 hB⟩
        intro x hx
        rcases mem_compactMerge _ _ x hx with h' | h'
        · exact h1all x h'
        · rcases List.mem_cons.mp h' with h'' | h''
          · rw [h'']
            exact h12
          · exact lt_trans h12 (h2all x h'')
      · by_cases h21 : e2.key < e1.key
        · rw [if_neg h12, if_pos h21]
          refine List.pairwise_cons.mpr ⟨?_, ihB hA hr2⟩
          intro x hx
          rcases mem_compactMerge _ _ x hx with h' | h'
          · rcases List.mem_cons.mp h' with h'' | h''
            · rw [h'']
              exact h21
            · exact lt_trans h21 (h1all x h'')
          · exact h2all x h'
        · rw [if_neg h12, if_neg h21]
          have hkey : e2.key = e1.key := le_antisymm (not_lt.mp h12) (not_lt.mp h21)
          refine List.pairwise_cons.mpr ⟨?_, ihA r2 hr1 hr2⟩
          intro x hx
          rcases mem_compactMerge _ _ x hx with h' | h'
          · rw [hkey]
            exact h1all x h'
          · exact h2all x h'

theorem find?_compactMerge (key : Key) :
    ∀ (A B : List Entry), sortedSeg A → sortedSeg B →
      (compactMerge A B).find? (fun e => decide (e.key = key)) =
        (match B.find? (fun e => decide (e.key = key)) with
         | some e => some e
         | none => A.find? (fun e => decide (e.key = key))) := by
  intro A
  induction A with
  | nil =>
    intro B _ _
    rw [compactMerge_nil_left]
    cases hB : B.find? (fun e => decide (e.key = key)) <;> simp [hB]
  | cons e1 r1 ihA =>
    intro B
    induction B with
    | nil =>
      intro _ _
      rw [compactMerge_nil_right]
      rfl
    | cons e2 r2 ihB =>
      intro hA hB
      rcases List.pairwise_cons.mp hA with ⟨h1all, hr1⟩
      rcases List.pairwise_cons.mp hB with ⟨h2all, hr2⟩
      rw [compactMerge_cons_cons]
      by_cases h12 : e1.key < e2.key
      · rw [if_pos h12]
        by_cases hk1 : e1.key = key
        · have hBnone : (e2 :: r2).find? (fun e => decide (e.key = key)) = none := by
            refine List.find?_eq_none.mpr ?_
            intro x hx
            simp only [decide_eq_true_eq]
            intro hc
            rcases List.mem_cons.mp hx with h' | h'
            · rw [h'] at hc
              rw [hc, ← hk1] at h12
              exact lt_irrefl _ h12
            · have := h2all x h'
              rw [hc, ← hk1] at this
              exact lt_irrefl _ (lt_trans h12 this)
          rw [List.find?_cons_of_pos _ (by simpa using hk1), hBnone,
            List.find?_cons_of_pos _ (by simpa using hk1)]
        · rw [List.find?_cons_of_neg _ (by simpa using hk1), ihA _ hr1 hB]
          cases hf : (e2 :: r2).find? (fun e => decide (e.key = key)) with
          | some e => rfl
          | none => rw [List.find?_cons_of_neg _ (by simpa using hk1)]
      · by_cases h21 : e2.key < e1.key
        · rw [if_neg h12, if_pos h21]
          by_cases hk2 : e2.key = key
          · rw [List.find?_cons_of_pos _ (by simpa using hk2),
              List.find?_cons_of_pos _ (by simpa using hk2)]
          · rw [List.find?_cons_of_neg _ (by simpa using hk2), ihB hA hr2]
            conv_rhs => rw [List.find?_cons_of_neg _ (by simpa using hk2)]
        · rw [if_neg h12, if_neg h21]
          have hkey : e2.key = e1.key := le_antisymm (not_lt.mp h12) (not_lt.mp h21)
          by_cases hk2 : e2.key = key
          · rw [List.find?_cons_of_pos _ (by simpa using hk2),
              List.find?_cons_of_pos _ (by simpa using hk2)]
          · have hk1 : ¬ e1.key = key := by
              rw [← hkey]
              exact hk2
            rw [List.find?_cons_of_neg _ (by simpa using hk2), ihA _ hr1 hr2,
              List.find?_cons_of_neg _ (by simpa using hk2)]
            cases hf : r2.find? (fun e => decide (e.key = key)) with
            | some e => rfl
            | none => rw [List.find?_cons_of_neg _ (by simpa using hk1)]

/-! ### Claim C2 -/

/-- C2: for sorted segments A (older) and B (newer), the two-way merge of
`compact` — which on equal keys writes B's entry and advances both streams —
produces a sorted segment C whose lookup agrees with the newest-first lookup
over [B, A] at every key, for every Bloom false-positive oracle; tombstone
entries flow through the merge unchanged, so tombstone answers are preserved
as well. -/
theorem c2_compaction_law {A B : List Entry} (hA : sortedSeg A) (hB : sortedSeg B) :
    sortedSeg (compactMerge A B) ∧
    ∀ (fp : List Key → Key → Bool) (key : Key),
      segmentGet fp (compactMerge A B) key = lookupNewestFirst fp [B, A] key := by
  refine ⟨sortedSeg_compactMerge A B hA hB, ?_⟩
  intro fp key
  rw [segmentGet_eq_segLookup fp (sortedSeg_compactMerge A B hA hB) key, lookupNewestFirst,
    List.findSome?_cons, segmentGet_eq_segLookup fp hB key, segLookup, segLookup,
    find?_compactMerge key A B hA hB]
  cases hfB : B.find? (fun e => decide (e.key = key)) with
  | some e => rfl
  | none =>
    rw [Option.map_none']
    show _ = List.findSome? (fun s => segmentGet fp s key) [A]
    rw [List.findSome?_cons, segmentGet_eq_segLookup fp hA key, segLookup]
    cases hfA : A.find? (fun e => decide (e.key = key)) with
    | some e => rfl
    | none => rfl

/-- C2 witness: merging the sorted segments
A = [("a","1"), tombstone "c"] (older) and B = [("b","2"), ("c","9")]
(newer): the merged segment's lookup of "c" equals the newest-first lookup
over [B, A]. -/
theorem c2_compaction_law_witness :
    segmentGet (fun _ _ => false)
      (compactMerge [.assignment [97] [49], .tombstone [99]]
        [.assignment [98] [50], .assignment [99] [57]]) [99] =
      lookupNewestFirst (fun _ _ => false)
        [[.assignment [98] [50], .assignment [99] [57]],
         [.assignment [97] [49], .tombstone [99]]] [99] :=
  (c2_compaction_law (by decide) (by decide)).2 (fun _ _ => false) [99]

end Crunch
